import Mathlib

/-!
Verification of the maze topology engine (MazeGenerator and its consumers).

The JavaScript class MazeGenerator stores a rectangular grid of wall and
passage cells in a coordinate-keyed map, carves it with an external
generator, braids dead ends, and selects start and exit cells near the
border maximizing BFS distance.  This file embeds those operations as
executable Lean functions and proves the stated properties about them.

The JS Map with string keys of the shape x,y is modelled as a function
from integer coordinate pairs to Option Bool: a missing key is none, and
the public query isWall returns true only when the stored value is the
boolean true, exactly as the strict equality check in the source does.
Randomness in braid (one draw per dead end, one index draw per carve) is
modelled by explicit oracle parameters, so theorems quantify over every
outcome of the random draws.
-/

set_option maxHeartbeats 1600000

abbrev Cell := Int × Int

/-- State of MazeGenerator: width, height, the coordinate-keyed wall map,
and the two endpoint fields (null before setStartAndExit runs). -/
structure Maze where
  width : Nat
  height : Nat
  maze : Cell → Option Bool
  startPos : Option Cell
  exitPos : Option Cell

/-- isWall: the map lookup compared with true by strict equality. -/
def isWall (m : Maze) (x y : Int) : Bool :=
  decide (m.maze (x, y) = some true)

/-- setWall: store a wall flag at the given key. -/
def setWall (m : Maze) (x y : Int) (w : Bool) : Maze :=
  { m with maze := fun c => if c = (x, y) then some w else m.maze c }

/-- isInBounds: the four comparisons of the source. -/
def isInBounds (m : Maze) (x y : Int) : Bool :=
  decide (0 ≤ x) && decide (x < (m.width : Int)) &&
  decide (0 ≤ y) && decide (y < (m.height : Int))

/-- The direction list North, East, South, West used by the neighbor scans. -/
def directions : List (Int × Int) := [(0, -1), (1, 0), (0, 1), (-1, 0)]

/-- The four orthogonal neighbor coordinates of a cell, in scan order. -/
def neighbors4 (c : Cell) : List Cell :=
  directions.map (fun d => (c.1 + d.1, c.2 + d.2))

/-- getPassageNeighbors: in-bounds non-wall orthogonal neighbors, in scan order. -/
def getPassageNeighbors (m : Maze) (x y : Int) : List Cell :=
  (neighbors4 (x, y)).filter (fun q => isInBounds m q.1 q.2 && !isWall m q.1 q.2)

/-- getWalledNeighbors: in-bounds wall orthogonal neighbors, in scan order. -/
def getWalledNeighbors (m : Maze) (x y : Int) : List Cell :=
  (neighbors4 (x, y)).filter (fun q => isInBounds m q.1 q.2 && isWall m q.1 q.2)

/-- isDeadEnd: a non-wall cell with exactly one passage neighbor. -/
def isDeadEnd (m : Maze) (x y : Int) : Bool :=
  if isWall m x y then false
  else decide ((getPassageNeighbors m x y).length = 1)

/-- The row-major enumeration of all grid cells (y outer, x inner) used by
the full-grid scans of the source. -/
def cellsRowMajor (m : Maze) : List Cell :=
  (List.range m.height).flatMap
    (fun y => (List.range m.width).map (fun x => (Int.ofNat x, Int.ofNat y)))

/-- findAllDeadEnds: row-major scan collecting non-wall dead ends. -/
def findAllDeadEnds (m : Maze) : List Cell :=
  (cellsRowMajor m).filter (fun c => !isWall m c.1 c.2 && isDeadEnd m c.1 c.2)

/-- One iteration of the braid loop for one dead end: flip the percentage
coin, and if it passes and a walled neighbor exists, carve a random one. -/
def braidStep (flip : Cell → Bool) (pick : Cell → Nat) (acc : Maze) (c : Cell) : Maze :=
  if flip c then
    let ws := getWalledNeighbors acc c.1 c.2
    if h : 0 < ws.length then
      let t := ws.get ⟨pick c % ws.length, Nat.mod_lt _ h⟩
      setWall acc t.1 t.2 false
    else acc
  else acc

/-- braid: early-return on nonpositive percentage, then one braidStep per
dead end of the pre-braid grid, in scan order.  flip models one draw of
Math.random per dead end compared against the percentage, pick models the
random index draw into the walled-neighbor list. -/
def braid (m : Maze) (percentage : Int) (flip : Cell → Bool) (pick : Cell → Nat) : Maze :=
  if percentage ≤ 0 then m
  else (findAllDeadEnds m).foldl (braidStep flip pick) m

/-- borderCells: the row-major list of non-wall cells within two cells of
an edge, as collected by step 1 of setStartAndExit. -/
def borderCells (m : Maze) : List Cell :=
  (cellsRowMajor m).filter
    (fun c => !isWall m c.1 c.2 &&
      (decide (c.1 ≤ 1) || decide ((m.width : Int) - 2 ≤ c.1) ||
       decide (c.2 ≤ 1) || decide ((m.height : Int) - 2 ≤ c.2)))

abbrev DMap := List (Cell × Nat)

/-- Lookup in the distance map (a JS Map keyed by coordinates). -/
def dmFind : DMap → Cell → Option Nat
  | [], _ => none
  | e :: rest, c => if e.1 = c then some e.2 else dmFind rest c

/-- Body of the inner neighbor loop of calculateDistances: record an unseen
neighbor at distance d + 1 and push it on the queue. -/
def bfsStep (d : Nat) (st : DMap × List (Cell × Nat)) (q : Cell) : DMap × List (Cell × Nat) :=
  if dmFind st.1 q = none then ((q, d + 1) :: st.1, st.2 ++ [(q, d + 1)])
  else st

theorem mem_cellsRowMajor (m : Maze) (c : Cell) :
    c ∈ cellsRowMajor m ↔
      0 ≤ c.1 ∧ c.1 < (m.width : Int) ∧ 0 ≤ c.2 ∧ c.2 < (m.height : Int) := by
  rcases c with ⟨x, y⟩
  simp only [cellsRowMajor, List.mem_flatMap, List.mem_map, List.mem_range]
  constructor
  · rintro ⟨b, hb, a, ha, h⟩
    injection h with hx hy
    rw [Int.ofNat_eq_natCast] at hx hy
    omega
  · rintro ⟨h0x, hxw, h0y, hyh⟩
    refine ⟨y.toNat, by omega, x.toNat, by omega, ?_⟩
    simp only [Prod.ext_iff, Int.ofNat_eq_natCast]
    omega

theorem isInBounds_iff (m : Maze) (x y : Int) :
    isInBounds m x y = true ↔
      0 ≤ x ∧ x < (m.width : Int) ∧ 0 ≤ y ∧ y < (m.height : Int) := by
  simp [isInBounds, and_assoc]

theorem isInBounds_iff_mem (m : Maze) (x y : Int) :
    isInBounds m x y = true ↔ (x, y) ∈ cellsRowMajor m := by
  rw [isInBounds_iff, mem_cellsRowMajor]

theorem nodup_cellsRowMajor (m : Maze) : (cellsRowMajor m).Nodup := by
  unfold cellsRowMajor
  rw [List.nodup_flatMap]
  constructor
  · intro y hy
    refine (List.nodup_range _).map ?_
    intro a b h
    injection h with h1 h2
    simp only [Int.ofNat_eq_natCast] at h1
    omega
  · refine (List.nodup_range m.height).imp ?_
    intro a b hne x hxa hxb
    simp only [Function.onFun, List.mem_map, List.mem_range] at hxa hxb
    obtain ⟨xa, _, ha⟩ := hxa
    obtain ⟨xb, _, hb⟩ := hxb
    rw [← hb] at ha
    injection ha with h1 h2
    simp only [Int.ofNat_eq_natCast] at h2
    omega

theorem nodup_neighbors4 (c : Cell) : (neighbors4 c).Nodup := by
  rcases c with ⟨x, y⟩
  simp [neighbors4, directions, Prod.mk.injEq]

theorem mem_neighbors4_symm (c q : Cell) : q ∈ neighbors4 c ↔ c ∈ neighbors4 q := by
  rcases c with ⟨x, y⟩; rcases q with ⟨a, b⟩
  simp only [neighbors4, directions, List.map_cons, List.map_nil, List.mem_cons,
    List.not_mem_nil, or_false, Prod.mk.injEq]
  constructor <;> rintro (⟨h1, h2⟩ | ⟨h1, h2⟩ | ⟨h1, h2⟩ | ⟨h1, h2⟩) <;> omega

theorem mem_getPassageNeighbors (m : Maze) (x y : Int) (q : Cell) :
    q ∈ getPassageNeighbors m x y ↔
      q ∈ neighbors4 (x, y) ∧ isInBounds m q.1 q.2 = true ∧ isWall m q.1 q.2 = false := by
  simp [getPassageNeighbors, List.mem_filter]

theorem mem_getWalledNeighbors (m : Maze) (x y : Int) (q : Cell) :
    q ∈ getWalledNeighbors m x y ↔
      q ∈ neighbors4 (x, y) ∧ isInBounds m q.1 q.2 = true ∧ isWall m q.1 q.2 = true := by
  simp [getWalledNeighbors, List.mem_filter]

theorem nodup_getPassageNeighbors (m : Maze) (x y : Int) :
    (getPassageNeighbors m x y).Nodup :=
  (nodup_neighbors4 (x, y)).filter _

/-- Full description of the inner neighbor loop of calculateDistances: the
queue grows by the unseen neighbors in order, and the distance map gains
exactly those keys, each at distance d + 1. -/
theorem bfsFold_desc (d : Nat) (ns : List Cell) (hnd : ns.Nodup) :
    ∀ (dist : DMap) (rest : List (Cell × Nat)),
      (ns.foldl (bfsStep d) (dist, rest)).2
          = rest ++ (ns.filter (fun q => (dmFind dist q).isNone)).map (fun q => (q, d + 1))
      ∧ ∀ c, dmFind (ns.foldl (bfsStep d) (dist, rest)).1 c
          = if c ∈ ns.filter (fun q => (dmFind dist q).isNone) then some (d + 1)
            else dmFind dist c := by
  induction ns with
  | nil => intro dist rest; simp
  | cons a tl ih =>
    intro dist rest
    have ha : a ∉ tl := (List.nodup_cons.mp hnd).1
    have htl : tl.Nodup := (List.nodup_cons.mp hnd).2
    by_cases h : dmFind dist a = none
    · have hstep : bfsStep d (dist, rest) a = ((a, d + 1) :: dist, rest ++ [(a, d + 1)]) := by
        simp [bfsStep, h]
      have hfind : ∀ c, dmFind ((a, d + 1) :: dist) c
          = if c = a then some (d + 1) else dmFind dist c := by
        intro c
        simp only [dmFind]
        by_cases hc : a = c
        · subst hc; simp
        · rw [if_neg hc, if_neg (fun hh => hc hh.symm)]
      have hfilter : tl.filter (fun q => (dmFind ((a, d + 1) :: dist) q).isNone)
          = tl.filter (fun q => (dmFind dist q).isNone) := by
        apply List.filter_congr
        intro q hq
        rw [hfind q, if_neg]
        intro hqa; exact ha (hqa ▸ hq)
      obtain ⟨ih2, ih1⟩ := ih htl ((a, d + 1) :: dist) (rest ++ [(a, d + 1)])
      constructor
      · rw [List.foldl_cons, hstep, ih2, hfilter]
        have : (a :: tl).filter (fun q => (dmFind dist q).isNone)
            = a :: tl.filter (fun q => (dmFind dist q).isNone) := by
          rw [List.filter_cons_of_pos]
          simp [h]
        rw [this, List.map_cons, List.append_assoc]
        rfl
      · intro c
        rw [List.foldl_cons, hstep, ih1 c, hfilter]
        have hfc : (a :: tl).filter (fun q => (dmFind dist q).isNone)
            = a :: tl.filter (fun q => (dmFind dist q).isNone) := by
          rw [List.filter_cons_of_pos]; simp [h]
        rw [hfc]
        by_cases hc : c ∈ tl.filter (fun q => (dmFind dist q).isNone)
        · simp [hc, List.mem_cons]
        · rw [if_neg hc, hfind c]
          by_cases hca : c = a
          · simp [hca]
          · simp [hca, hc]
    · have hstep : bfsStep d (dist, rest) a = (dist, rest) := by
        simp [bfsStep, h]
      have hfc : (a :: tl).filter (fun q => (dmFind dist q).isNone)
          = tl.filter (fun q => (dmFind dist q).isNone) := by
        rw [List.filter_cons_of_neg]; simp [h]
      obtain ⟨ih2, ih1⟩ := ih htl dist rest
      rw [List.foldl_cons, hstep, hfc]
      exact ⟨ih2, ih1⟩

theorem countP_le_of_imp (p q : Cell → Bool) :
    ∀ l : List Cell, (∀ a ∈ l, p a = true → q a = true) → l.countP p ≤ l.countP q := by
  intro l
  induction l with
  | nil => intro _; simp
  | cons a tl ih =>
    intro h
    rw [List.countP_cons, List.countP_cons]
    have h1 : tl.countP p ≤ tl.countP q := ih (fun b hb => h b (List.mem_cons_of_mem a hb))
    by_cases hp : p a = true
    · have hq : q a = true := h a (List.mem_cons_self a _) hp
      simp [hp, hq]; omega
    · have hp2 : p a = false := by simpa using hp
      simp [hp2]
      by_cases hq : q a = true <;> simp [hq] <;> omega

theorem countP_lt_of_witness (p q : Cell → Bool) :
    ∀ l : List Cell, (∀ a ∈ l, p a = true → q a = true) →
      ∀ a0 ∈ l, q a0 = true → p a0 = false → l.countP p < l.countP q := by
  intro l
  induction l with
  | nil => intro _ a0 h0; simp at h0
  | cons a tl ih =>
    intro h a0 ha0 hq0 hp0
    rw [List.countP_cons, List.countP_cons]
    rcases List.mem_cons.mp ha0 with rfl | hmem
    · have h1 : tl.countP p ≤ tl.countP q :=
        countP_le_of_imp p q tl (fun b hb => h b (List.mem_cons_of_mem a0 hb))
      simp [hq0, hp0]; omega
    · have h1 : tl.countP p < tl.countP q :=
        ih (fun b hb => h b (List.mem_cons_of_mem a hb)) a0 hmem hq0 hp0
      by_cases hp : p a = true
      · have hq : q a = true := h a (List.mem_cons_self a _) hp
        simp [hp, hq]; omega
      · have hp2 : p a = false := by simpa using hp
        simp [hp2]
        by_cases hq : q a = true <;> simp [hq] <;> omega

theorem countP_congr_pointwise (p q : Cell → Bool) :
    ∀ l : List Cell, (∀ a ∈ l, p a = q a) → l.countP p = l.countP q := by
  intro l h
  exact Nat.le_antisymm
    (countP_le_of_imp p q l (fun a ha hp => (h a ha) ▸ hp))
    (countP_le_of_imp q p l (fun a ha hq => (h a ha) ▸ hq))

/-- Number of grid cells not yet recorded in the distance map; the
decreasing measure of the BFS while loop. -/
def missingCount (m : Maze) (dist : DMap) : Nat :=
  (cellsRowMajor m).countP (fun c => (dmFind dist c).isNone)

/-- The while loop of calculateDistances: dequeue a cell, record its
unseen passage neighbors one step farther, enqueue them, repeat. -/
def bfsLoop (m : Maze) (dist : DMap) (queue : List (Cell × Nat)) : DMap :=
  match queue with
  | [] => dist
  | (c, d) :: rest =>
    bfsLoop m ((getPassageNeighbors m c.1 c.2).foldl (bfsStep d) (dist, rest)).1
             ((getPassageNeighbors m c.1 c.2).foldl (bfsStep d) (dist, rest)).2
termination_by (missingCount m dist, queue.length)
decreasing_by
  obtain ⟨h2, h1⟩ := bfsFold_desc d (getPassageNeighbors m c.1 c.2)
    (nodup_getPassageNeighbors m c.1 c.2) dist rest
  rcases hf : (getPassageNeighbors m c.1 c.2).filter (fun q => (dmFind dist q).isNone) with
    _ | ⟨q0, ftl⟩
  · have hmiss : missingCount m
        ((getPassageNeighbors m c.1 c.2).foldl (bfsStep d) (dist, rest)).1
        = missingCount m dist := by
      apply countP_congr_pointwise
      intro a _
      rw [h1 a, hf]
      simp
    have hlen : ((getPassageNeighbors m c.1 c.2).foldl (bfsStep d) (dist, rest)).2.length
        = rest.length := by rw [h2, hf]; simp
    rw [hmiss, hlen]
    exact Prod.Lex.right _ (by simp)
  · apply Prod.Lex.left
    apply countP_lt_of_witness _ _ _ ?imp q0 ?mem ?qt ?pf
    case imp =>
      intro a _ hp
      rw [h1 a] at hp
      by_cases hmem : a ∈ (getPassageNeighbors m c.1 c.2).filter
          (fun q => (dmFind dist q).isNone)
      · rw [if_pos hmem] at hp; simp at hp
      · rw [if_neg hmem] at hp; exact hp
    case mem =>
      have hq0 : q0 ∈ (getPassageNeighbors m c.1 c.2).filter
          (fun q => (dmFind dist q).isNone) := by rw [hf]; exact List.mem_cons_self q0 ftl
      have hq0p : q0 ∈ getPassageNeighbors m c.1 c.2 := List.mem_of_mem_filter hq0
      have hb : isInBounds m q0.1 q0.2 = true :=
        ((mem_getPassageNeighbors m c.1 c.2 q0).mp hq0p).2.1
      have := (isInBounds_iff_mem m q0.1 q0.2).mp hb
      simpa using this
    case qt =>
      have hq0 : q0 ∈ (getPassageNeighbors m c.1 c.2).filter
          (fun q => (dmFind dist q).isNone) := by rw [hf]; exact List.mem_cons_self q0 ftl
      exact (List.mem_filter.mp hq0).2
    case pf =>
      have hq0 : q0 ∈ (getPassageNeighbors m c.1 c.2).filter
          (fun q => (dmFind dist q).isNone) := by rw [hf]; exact List.mem_cons_self q0 ftl
      rw [h1 q0, if_pos hq0]
      rfl

/-- calculateDistances: BFS over the passage graph from the given start,
returning the map of hop distances. -/
def calculateDistances (m : Maze) (sx sy : Int) : DMap :=
  bfsLoop m [((sx, sy), 0)] [((sx, sy), 0)]

/-- Step 2 of setStartAndExit: the nested loop over index pairs i < j of
the border-cell list, keeping the pair with the largest defined BFS
distance (strictly greater than the running maximum), with the distance
map hoisted out of the inner loop exactly as in the source. -/
def selectBest (m : Maze) (bcs : List Cell) : Nat × Cell × Cell :=
  (List.range bcs.length).foldl
    (fun st i =>
      let ds := calculateDistances m (bcs.getD i (0, 0)).1 (bcs.getD i (0, 0)).2
      (List.range' (i + 1) (bcs.length - (i + 1))).foldl
        (fun st2 j =>
          match dmFind ds (bcs.getD j (0, 0)) with
          | some dd => if st2.1 < dd then (dd, bcs.getD i (0, 0), bcs.getD j (0, 0)) else st2
          | none => st2)
        st)
    (0, bcs.getD 0 (0, 0), bcs.getD 1 (0, 0))

/-- setStartAndExit: collect border cells; with fewer than two fall back to
the fixed pair; otherwise take the best pair and orient it by coordinate
sum (strictly smaller sum becomes the start). -/
def setStartAndExit (m : Maze) : Maze :=
  let bcs := borderCells m
  if bcs.length < 2 then
    { m with startPos := some (1, 1),
             exitPos := some ((m.width : Int) - 2, (m.height : Int) - 2) }
  else
    let best := selectBest m bcs
    if best.2.1.1 + best.2.1.2 < best.2.2.1 + best.2.2.2 then
      { m with startPos := some best.2.1, exitPos := some best.2.2 }
    else
      { m with startPos := some best.2.2, exitPos := some best.2.1 }

/-- The three ROT.js generator classes reachable from the algorithm
switch; the default arm selects DividedMaze, the same class as the
divided key. -/
inductive GeneratorKind where
  | eller : GeneratorKind
  | icey : GeneratorKind
  | divided : GeneratorKind
deriving DecidableEq

/-- The switch statement of generate over the algorithm string. -/
def selectGenerator (alg : String) : GeneratorKind :=
  match alg with
  | "eller" => GeneratorKind.eller
  | "icey" => GeneratorKind.icey
  | "divided" => GeneratorKind.divided
  | _ => GeneratorKind.divided

/-- The maze.clear() call at the top of generate. -/
def clearMaze (m : Maze) : Maze := { m with maze := fun _ => none }

/-- The initialization loop of generate: every grid cell becomes a wall. -/
def initWalls (m : Maze) : Maze :=
  (cellsRowMajor m).foldl (fun acc c => setWall acc c.1 c.2 true) m

/-- The generator callback replay: the external ROT.js generator invokes
the callback with (x, y, value) triples and the callback sets a wall
exactly when the value is 1. -/
def applyCarve (m : Maze) (cb : List (Cell × Nat)) : Maze :=
  cb.foldl (fun acc e => setWall acc e.1.1 e.1.2 (decide (e.2 = 1))) m

/-- generate: clear the map, wall every cell, replay the callbacks of the
selected external generator (the carve oracle stands for the seeded
ROT.js generator run), then set start and exit.  The RNG seeding and the
debug wall count of the source have no effect on the maze state. -/
def generate (m : Maze) (alg : String) (carve : GeneratorKind → List (Cell × Nat)) : Maze :=
  setStartAndExit (applyCarve (initWalls (clearMaze m)) (carve (selectGenerator alg)))

/-- Reachability in the passage graph: a chain of orthogonally adjacent
in-bounds passage cells of the given length, starting at s. -/
inductive reach (m : Maze) (s : Cell) : Cell → Nat → Prop where
  | refl : reach m s s 0
  | step {c q : Cell} {n : Nat} : reach m s c n → q ∈ neighbors4 c →
      isInBounds m q.1 q.2 = true → isWall m q.1 q.2 = false → reach m s q (n + 1)

/-- Full connectivity: every in-bounds passage cell reaches every other. -/
def connectedMaze (m : Maze) : Prop :=
  ∀ a b : Cell, isInBounds m a.1 a.2 = true → isWall m a.1 a.2 = false →
    isInBounds m b.1 b.2 = true → isWall m b.1 b.2 = false → ∃ n, reach m a b n

/-- A cell within two cells of a grid edge, the border band of
setStartAndExit. -/
def nearBorder (m : Maze) (c : Cell) : Prop :=
  c.1 ≤ 1 ∨ (m.width : Int) - 2 ≤ c.1 ∨ c.2 ≤ 1 ∨ (m.height : Int) - 2 ≤ c.2

/-- The i < j index pairs of the nested selection loops, in enumeration
order (outer index increasing, inner index increasing from i + 1). -/
def pairList (n : Nat) : List (Nat × Nat) :=
  (List.range n).flatMap (fun i => (List.range' (i + 1) (n - (i + 1))).map (fun j => (i, j)))

/-- The BFS distance the selection loop reads for an index pair: distance
from border cell i to border cell j. -/
def dOf (m : Maze) (bcs : List Cell) (p : Nat × Nat) : Option Nat :=
  dmFind (calculateDistances m (bcs.getD p.1 (0, 0)).1 (bcs.getD p.1 (0, 0)).2)
    (bcs.getD p.2 (0, 0))

/-- The selection loop body, expressed on one index pair. -/
def pairStep (m : Maze) (bcs : List Cell) (st : Nat × Cell × Cell) (p : Nat × Nat) :
    Nat × Cell × Cell :=
  match dOf m bcs p with
  | some dd => if st.1 < dd then (dd, bcs.getD p.1 (0, 0), bcs.getD p.2 (0, 0)) else st
  | none => st

/-- A concrete test maze: the given dimensions, every in-bounds cell a
wall except the listed passage cells, out-of-bounds keys absent. -/
def mkMaze (w h : Nat) (ps : List Cell) : Maze :=
  { width := w, height := h,
    maze := fun c =>
      if 0 ≤ c.1 ∧ c.1 < (w : Int) ∧ 0 ≤ c.2 ∧ c.2 < (h : Int) then
        some (decide (c ∉ ps))
      else none,
    startPos := none, exitPos := none }

theorem pairwise_of_total {α : Type} {R : α → α → Prop} (h : ∀ a b, R a b) :
    ∀ l : List α, l.Pairwise R := by
  intro l
  induction l with
  | nil => exact List.Pairwise.nil
  | cons a tl ih => exact List.Pairwise.cons (fun b _ => h a b) ih

/-- Loop invariant of the BFS: recorded distances are sound, the source is
recorded at 0, queue entries carry their recorded distance, queue values
are sorted and spread by at most one, every recorded value is within one
of every queued value, and every recorded cell is queued or has all its
passage neighbors recorded within one. -/
structure BfsInv (m : Maze) (s : Cell) (dist : DMap) (queue : List (Cell × Nat)) : Prop where
  sound : ∀ c n, dmFind dist c = some n → reach m s c n
  src : dmFind dist s = some 0
  qdist : ∀ e ∈ queue, dmFind dist e.1 = some e.2
  qsorted : queue.Pairwise (fun e f => e.2 ≤ f.2)
  qspread : ∀ e ∈ queue, ∀ f ∈ queue, e.2 ≤ f.2 + 1
  vbound : ∀ a n, dmFind dist a = some n → ∀ e ∈ queue, n ≤ e.2 + 1
  closed : ∀ a n, dmFind dist a = some n →
    (∃ e ∈ queue, e.1 = a) ∨
    ∀ q ∈ getPassageNeighbors m a.1 a.2, ∃ k, dmFind dist q = some k ∧ k ≤ n + 1

/-- What remains of the invariant when the queue has emptied: soundness,
the source entry, and closure of the recorded set under passage
neighbors. -/
def BfsFinal (m : Maze) (s : Cell) (R : DMap) : Prop :=
  (∀ c n, dmFind R c = some n → reach m s c n) ∧
  dmFind R s = some 0 ∧
  (∀ a n, dmFind R a = some n →
    ∀ q ∈ getPassageNeighbors m a.1 a.2, ∃ k, dmFind R q = some k ∧ k ≤ n + 1)

theorem bfsInv_preserved (m : Maze) (s c : Cell) (d : Nat) (dist dist2 : DMap)
    (rest queue2 : List (Cell × Nat))
    (inv : BfsInv m s dist ((c, d) :: rest))
    (hq : queue2 = rest ++ ((getPassageNeighbors m c.1 c.2).filter
        (fun q => (dmFind dist q).isNone)).map (fun q => (q, d + 1)))
    (hd : ∀ a, dmFind dist2 a =
      if a ∈ (getPassageNeighbors m c.1 c.2).filter (fun q => (dmFind dist q).isNone)
      then some (d + 1) else dmFind dist a) :
    BfsInv m s dist2 queue2 := by
  have hcd : dmFind dist c = some d := inv.qdist (c, d) (List.mem_cons_self _ _)
  have hreach_c : reach m s c d := inv.sound c d hcd
  have hfresh_mem : ∀ q ∈ (getPassageNeighbors m c.1 c.2).filter
      (fun q => (dmFind dist q).isNone),
      q ∈ getPassageNeighbors m c.1 c.2 ∧ dmFind dist q = none := by
    intro q hqf
    obtain ⟨hq1, hq2⟩ := List.mem_filter.mp hqf
    refine ⟨hq1, ?_⟩
    simpa [Option.isNone_iff_eq_none] using hq2
  have hold : ∀ a k, dmFind dist a = some k → dmFind dist2 a = some k := by
    intro a k ha
    rw [hd a, if_neg]
    · exact ha
    · intro haf
      rw [(hfresh_mem a haf).2] at ha
      exact Option.noConfusion ha
  have hmap_mem : ∀ f ∈ ((getPassageNeighbors m c.1 c.2).filter
      (fun q => (dmFind dist q).isNone)).map (fun q => (q, d + 1)),
      f.2 = d + 1 ∧ f.1 ∈ (getPassageNeighbors m c.1 c.2).filter
        (fun q => (dmFind dist q).isNone) := by
    intro f hf
    obtain ⟨q, hqf, rfl⟩ := List.mem_map.mp hf
    exact ⟨rfl, hqf⟩
  have hrest_le : ∀ e ∈ rest, d ≤ e.2 :=
    fun e he => (List.pairwise_cons.mp inv.qsorted).1 e he
  have hrest_spread : ∀ e ∈ rest, e.2 ≤ d + 1 :=
    fun e he => inv.qspread e (List.mem_cons_of_mem _ he) (c, d) (List.mem_cons_self _ _)
  refine ⟨?_, ?_, ?_, ?_, ?_, ?_, ?_⟩
  · -- sound
    intro a n ha
    rw [hd a] at ha
    by_cases haf : a ∈ (getPassageNeighbors m c.1 c.2).filter
        (fun q => (dmFind dist q).isNone)
    · rw [if_pos haf] at ha
      injection ha with hn
      obtain ⟨hmem, _⟩ := hfresh_mem a haf
      obtain ⟨hadj, hin, hw⟩ := (mem_getPassageNeighbors m c.1 c.2 a).mp hmem
      rw [← hn]
      exact reach.step hreach_c hadj hin hw
    · rw [if_neg haf] at ha
      exact inv.sound a n ha
  · -- src
    exact hold s 0 inv.src
  · -- qdist
    intro e he
    rw [hq] at he
    rcases List.mem_append.mp he with hr | hm
    · exact hold e.1 e.2 (inv.qdist e (List.mem_cons_of_mem _ hr))
    · obtain ⟨h2, h1⟩ := hmap_mem e hm
      rw [hd e.1, if_pos h1, h2]
  · -- qsorted
    rw [hq]
    rw [List.pairwise_append]
    refine ⟨(List.pairwise_cons.mp inv.qsorted).2, ?_, ?_⟩
    · rw [List.pairwise_map]
      exact pairwise_of_total (fun a b => Nat.le_refl _) _
    · intro e he f hf
      obtain ⟨h2, _⟩ := hmap_mem f hf
      rw [h2]
      exact hrest_spread e he
  · -- qspread
    intro e he f hf
    rw [hq] at he hf
    rcases List.mem_append.mp he with hre | hme <;>
      rcases List.mem_append.mp hf with hrf | hmf
    · exact inv.qspread e (List.mem_cons_of_mem _ hre) f (List.mem_cons_of_mem _ hrf)
    · obtain ⟨h2, _⟩ := hmap_mem f hmf
      rw [h2]
      have := hrest_spread e hre
      omega
    · obtain ⟨h2, _⟩ := hmap_mem e hme
      rw [h2]
      have := hrest_le f hrf
      omega
    · obtain ⟨h2, _⟩ := hmap_mem e hme
      obtain ⟨h2f, _⟩ := hmap_mem f hmf
      omega
  · -- vbound
    intro a n ha e he
    rw [hq] at he
    rw [hd a] at ha
    by_cases haf : a ∈ (getPassageNeighbors m c.1 c.2).filter
        (fun q => (dmFind dist q).isNone)
    · rw [if_pos haf] at ha
      injection ha with hn
      rcases List.mem_append.mp he with hre | hme
      · have := hrest_le e hre
        omega
      · obtain ⟨h2, _⟩ := hmap_mem e hme
        omega
    · rw [if_neg haf] at ha
      have hb := inv.vbound a n ha (c, d) (List.mem_cons_self _ _)
      rcases List.mem_append.mp he with hre | hme
      · have := hrest_le e hre
        omega
      · obtain ⟨h2, _⟩ := hmap_mem e hme
        omega
  · -- closed
    intro a n ha
    rw [hd a] at ha
    by_cases haf : a ∈ (getPassageNeighbors m c.1 c.2).filter
        (fun q => (dmFind dist q).isNone)
    · left
      exact ⟨(a, d + 1), by
        rw [hq]
        exact List.mem_append_right _ (List.mem_map.mpr ⟨a, haf, rfl⟩), rfl⟩
    · rw [if_neg haf] at ha
      rcases inv.closed a n ha with ⟨e, he, he1⟩ | hcl
      · rcases List.mem_cons.mp he with rfl | hre
        · -- the dequeued entry: a = c, prove closure from vbound
          right
          have hac : c = a := he1
          subst hac
          have hnd : n = d := by
            rw [hcd] at ha
            injection ha with h
            exact h.symm
          subst hnd
          intro q hqn
          by_cases hqf : q ∈ (getPassageNeighbors m c.1 c.2).filter
              (fun w => (dmFind dist w).isNone)
          · exact ⟨n + 1, by rw [hd q, if_pos hqf], Nat.le_refl _⟩
          · have hqs : ∃ k, dmFind dist q = some k := by
              rcases hk : dmFind dist q with _ | k
              · exact absurd (List.mem_filter.mpr ⟨hqn, by simp [hk]⟩) hqf
              · exact ⟨k, rfl⟩
            obtain ⟨k, hk⟩ := hqs
            refine ⟨k, hold q k hk, ?_⟩
            exact inv.vbound q k hk (c, n) (List.mem_cons_self _ _)
        · left
          exact ⟨e, by rw [hq]; exact List.mem_append_left _ hre, he1⟩
      · right
        intro q hqn
        obtain ⟨k, hk, hkle⟩ := hcl q hqn
        exact ⟨k, hold q k hk, hkle⟩

theorem bfsInv_init (m : Maze) (s : Cell) : BfsInv m s [(s, 0)] [(s, 0)] := by
  have hfind : ∀ a, dmFind [(s, 0)] a = if s = a then some 0 else none := by
    intro a
    simp only [dmFind]
  have hsome : ∀ a n, dmFind [(s, 0)] a = some n → a = s ∧ n = 0 := by
    intro a n ha
    rw [hfind a] at ha
    by_cases h : s = a
    · rw [if_pos h] at ha
      injection ha with h2
      exact ⟨h.symm, h2.symm⟩
    · rw [if_neg h] at ha
      exact Option.noConfusion ha
  refine ⟨?_, ?_, ?_, ?_, ?_, ?_, ?_⟩
  · intro a n ha
    obtain ⟨rfl, rfl⟩ := hsome a n ha
    exact reach.refl
  · rw [hfind s, if_pos rfl]
  · intro e he
    rcases List.mem_cons.mp he with rfl | h
    · rw [hfind s, if_pos rfl]
    · exact absurd h (List.not_mem_nil _)
  · exact List.pairwise_singleton _ _
  · intro e he f hf
    rcases List.mem_cons.mp he with rfl | h
    · omega
    · exact absurd h (List.not_mem_nil _)
  · intro a n ha e he
    obtain ⟨rfl, rfl⟩ := hsome a n ha
    omega
  · intro a n ha
    obtain ⟨rfl, rfl⟩ := hsome a n ha
    exact Or.inl ⟨(a, 0), List.mem_cons_self _ _, rfl⟩

theorem bfsLoop_nil (m : Maze) (dist : DMap) : bfsLoop m dist [] = dist := by
  rw [bfsLoop]

theorem bfsLoop_cons (m : Maze) (dist : DMap) (c : Cell) (d : Nat)
    (rest : List (Cell × Nat)) :
    bfsLoop m dist ((c, d) :: rest)
      = bfsLoop m ((getPassageNeighbors m c.1 c.2).foldl (bfsStep d) (dist, rest)).1
                 ((getPassageNeighbors m c.1 c.2).foldl (bfsStep d) (dist, rest)).2 := by
  rw [bfsLoop]

theorem bfsLoop_final (m : Maze) (s : Cell) :
    ∀ (dist : DMap) (queue : List (Cell × Nat)),
      BfsInv m s dist queue → BfsFinal m s (bfsLoop m dist queue) := by
  refine bfsLoop.induct m
    (fun dist queue => BfsInv m s dist queue → BfsFinal m s (bfsLoop m dist queue)) ?_ ?_
  · intro dist inv
    rw [bfsLoop_nil]
    refine ⟨inv.sound, inv.src, ?_⟩
    intro a n ha
    rcases inv.closed a n ha with ⟨e, he, _⟩ | hcl
    · exact absurd he (List.not_mem_nil _)
    · exact hcl
  · intro dist c d rest ih inv
    rw [bfsLoop_cons]
    apply ih
    obtain ⟨h2, h1⟩ := bfsFold_desc d (getPassageNeighbors m c.1 c.2)
      (nodup_getPassageNeighbors m c.1 c.2) dist rest
    exact bfsInv_preserved m s c d dist _ rest _ inv h2 h1

theorem reach_zero (m : Maze) (s c : Cell) (h : reach m s c 0) : c = s := by
  cases h
  rfl

theorem reach_to_dmFind (m : Maze) (s : Cell) (R : DMap) (hfin : BfsFinal m s R) :
    ∀ (c : Cell) (k : Nat), reach m s c k → ∃ v, dmFind R c = some v ∧ v ≤ k := by
  intro c k h
  induction h with
  | refl => exact ⟨0, hfin.2.1, Nat.le_refl 0⟩
  | step hprev hadj hin hw ih =>
    obtain ⟨v, hv, hvle⟩ := ih
    obtain ⟨k2, hk2, hk2le⟩ := hfin.2.2 _ v hv _
      ((mem_getPassageNeighbors m _ _ _).mpr ⟨hadj, hin, hw⟩)
    exact ⟨k2, hk2, by omega⟩

theorem calculateDistances_final (m : Maze) (sx sy : Int) :
    BfsFinal m (sx, sy) (calculateDistances m sx sy) := by
  rw [calculateDistances]
  exact bfsLoop_final m (sx, sy) _ _ (bfsInv_init m (sx, sy))

/-- Exact characterization of calculateDistances: a cell is recorded with
value n precisely when n is the length of a shortest passage path from
the start, and unreachable cells are absent. -/
theorem calculateDistances_spec (m : Maze) (sx sy : Int) (c : Cell) (n : Nat) :
    dmFind (calculateDistances m sx sy) c = some n ↔
      (reach m (sx, sy) c n ∧ ∀ k, reach m (sx, sy) c k → n ≤ k) := by
  have hfin := calculateDistances_final m sx sy
  constructor
  · intro h
    refine ⟨hfin.1 c n h, ?_⟩
    intro k hk
    obtain ⟨v, hv, hvle⟩ := reach_to_dmFind m (sx, sy) _ hfin c k hk
    rw [h] at hv
    injection hv with hv2
    omega
  · rintro ⟨hr, hmin⟩
    obtain ⟨v, hv, hvle⟩ := reach_to_dmFind m (sx, sy) _ hfin c n hr
    have hnv : n ≤ v := hmin v (hfin.1 c v hv)
    have : v = n := by omega
    rw [← this]
    exact hv

theorem calculateDistances_zero (m : Maze) (sx sy : Int) (c : Cell)
    (h : dmFind (calculateDistances m sx sy) c = some 0) : c = (sx, sy) :=
  reach_zero m (sx, sy) c ((calculateDistances_final m sx sy).1 c 0 h)

/-- Relation between the pre-braid maze and any maze reachable during the
braid fold: dimensions and endpoints unchanged, and every cell either
unchanged or carved from wall to passage next to a pre-braid dead end. -/
def braidInv (m acc : Maze) : Prop :=
  acc.width = m.width ∧ acc.height = m.height ∧ acc.startPos = m.startPos ∧
  acc.exitPos = m.exitPos ∧
  ∀ q : Cell, acc.maze q = m.maze q ∨
    (acc.maze q = some false ∧ m.maze q = some true ∧ isInBounds m q.1 q.2 = true ∧
      ∃ c ∈ findAllDeadEnds m, q ∈ neighbors4 c)

theorem isWall_congr_maze (m m2 : Maze) (x y : Int)
    (h : m2.maze (x, y) = m.maze (x, y)) : isWall m2 x y = isWall m x y := by
  unfold isWall
  rw [h]

theorem isInBounds_congr_dims (m m2 : Maze) (x y : Int)
    (hw : m2.width = m.width) (hh : m2.height = m.height) :
    isInBounds m2 x y = isInBounds m x y := by
  unfold isInBounds
  rw [hw, hh]

theorem mem_findAllDeadEnds (m : Maze) (c : Cell) (h : c ∈ findAllDeadEnds m) :
    isInBounds m c.1 c.2 = true ∧ isWall m c.1 c.2 = false := by
  obtain ⟨hmem, hpred⟩ := List.mem_filter.mp h
  have hin : isInBounds m c.1 c.2 = true := by
    rw [isInBounds_iff_mem]
    exact hmem
  refine ⟨hin, ?_⟩
  have := (Bool.and_eq_true _ _).mp hpred
  simpa using this.1

theorem braidInv_step (m acc : Maze) (flip : Cell → Bool) (pick : Cell → Nat) (c : Cell)
    (hc : c ∈ findAllDeadEnds m) (hinv : braidInv m acc) :
    braidInv m (braidStep flip pick acc c) := by
  obtain ⟨hw, hh, hs, he, hcell⟩ := hinv
  unfold braidStep
  by_cases hf : flip c
  · rw [if_pos hf]
    by_cases hlen : 0 < (getWalledNeighbors acc c.1 c.2).length
    · rw [dif_pos hlen]
      set t := (getWalledNeighbors acc c.1 c.2).get
        ⟨pick c % (getWalledNeighbors acc c.1 c.2).length,
         Nat.mod_lt _ hlen⟩ with hto
      have htmem : t ∈ getWalledNeighbors acc c.1 c.2 := List.get_mem _ _ _
      obtain ⟨htadj, htin, htwall⟩ := (mem_getWalledNeighbors acc c.1 c.2 t).mp htmem
      have htacc : acc.maze (t.1, t.2) = some true := of_decide_eq_true htwall
      refine ⟨hw, hh, hs, he, ?_⟩
      intro q
      by_cases hq : q = (t.1, t.2)
      · right
        subst hq
        have hmt : m.maze (t.1, t.2) = some true := by
          rcases hcell (t.1, t.2) with heq | ⟨hfalse, _, _, _⟩
          · rw [← heq]
            exact htacc
          · rw [htacc] at hfalse
            exact absurd (Option.some.inj hfalse) (by simp)
        refine ⟨?_, hmt, ?_, ⟨c, hc, ?_⟩⟩
        · show (setWall acc t.1 t.2 false).maze (t.1, t.2) = some false
          unfold setWall
          simp
        · rw [← isInBounds_congr_dims m acc t.1 t.2 hw hh]
          exact htin
        · exact htadj
      · have : (setWall acc t.1 t.2 false).maze q = acc.maze q := by
          unfold setWall
          simp only
          rw [if_neg hq]
        rw [this]
        exact hcell q
    · rw [dif_neg hlen]
      exact ⟨hw, hh, hs, he, hcell⟩
  · rw [if_neg hf]
    exact ⟨hw, hh, hs, he, hcell⟩

theorem braidInv_fold (m : Maze) (flip : Cell → Bool) (pick : Cell → Nat) :
    ∀ (L : List Cell), (∀ c ∈ L, c ∈ findAllDeadEnds m) → ∀ (acc : Maze),
      braidInv m acc → braidInv m (L.foldl (braidStep flip pick) acc) := by
  intro L
  induction L with
  | nil => intro _ acc h; exact h
  | cons a tl ih =>
    intro hL acc h
    rw [List.foldl_cons]
    exact ih (fun c hc => hL c (List.mem_cons_of_mem a hc))
      (braidStep flip pick acc a) (braidInv_step m acc flip pick a (hL a (List.mem_cons_self _ _)) h)

theorem braidInv_refl (m : Maze) : braidInv m m :=
  ⟨rfl, rfl, rfl, rfl, fun _ => Or.inl rfl⟩

theorem braid_inv (m : Maze) (p : Int) (flip : Cell → Bool) (pick : Cell → Nat) :
    braidInv m (braid m p flip pick) := by
  unfold braid
  by_cases hp : p ≤ 0
  · rw [if_pos hp]
    exact braidInv_refl m
  · rw [if_neg hp]
    exact braidInv_fold m flip pick (findAllDeadEnds m) (fun _ h => h) m (braidInv_refl m)

theorem braid_passage_preserved (m : Maze) (p : Int) (flip : Cell → Bool) (pick : Cell → Nat)
    (x y : Int) (h : isWall m x y = false) : isWall (braid m p flip pick) x y = false := by
  rcases (braid_inv m p flip pick).2.2.2.2 (x, y) with heq | ⟨hfalse, _, _, _⟩
  · rw [isWall_congr_maze m _ x y heq]
    exact h
  · unfold isWall
    rw [hfalse]
    simp

theorem reach_trans (m : Maze) (a b c : Cell) (k l : Nat)
    (h1 : reach m a b k) (h2 : reach m b c l) : reach m a c (k + l) := by
  induction h2 with
  | refl => exact h1
  | step r adj hin hw ih => exact reach.step ih adj hin hw

theorem reach_endpoint (m : Maze) (s c : Cell) (n : Nat) (h : reach m s c n) :
    c = s ∨ (isInBounds m c.1 c.2 = true ∧ isWall m c.1 c.2 = false) := by
  cases h with
  | refl => exact Or.inl rfl
  | step r adj hin hw => exact Or.inr ⟨hin, hw⟩

theorem reach_mono (m m2 : Maze) (hw : m2.width = m.width) (hh : m2.height = m.height)
    (hpass : ∀ x y, isWall m x y = false → isWall m2 x y = false)
    (s c : Cell) (n : Nat) (h : reach m s c n) : reach m2 s c n := by
  induction h with
  | refl => exact reach.refl
  | step r adj hin hwall ih =>
    refine reach.step ih adj ?_ (hpass _ _ hwall)
    rw [isInBounds_congr_dims m m2 _ _ hw hh]
    exact hin

theorem reach_symm_ex (m : Maze) (s c : Cell) (n : Nat)
    (hsin : isInBounds m s.1 s.2 = true) (hsw : isWall m s.1 s.2 = false)
    (h : reach m s c n) : ∃ k, reach m c s k := by
  induction h with
  | refl => exact ⟨0, reach.refl⟩
  | @step cprev q nn r adj hin hwall ih =>
    obtain ⟨k, hk⟩ := ih
    have hc : isInBounds m cprev.1 cprev.2 = true ∧ isWall m cprev.1 cprev.2 = false := by
      rcases reach_endpoint m s cprev nn r with rfl | hok
      · exact ⟨hsin, hsw⟩
      · exact hok
    have hstep : reach m q cprev 1 :=
      reach.step reach.refl ((mem_neighbors4_symm cprev q).mp adj) hc.1 hc.2
    exact ⟨1 + k, reach_trans m q cprev s 1 k hstep hk⟩

theorem braid_preserves_connected (m : Maze) (p : Int) (flip : Cell → Bool)
    (pick : Cell → Nat) (hconn : connectedMaze m) : connectedMaze (braid m p flip pick) := by
  have hinv := braid_inv m p flip pick
  obtain ⟨hw, hh, _, _, hcell⟩ := hinv
  have hpass := braid_passage_preserved m p flip pick
  have hanchor : ∀ a : Cell,
      isInBounds (braid m p flip pick) a.1 a.2 = true →
      isWall (braid m p flip pick) a.1 a.2 = false →
      ∃ aa : Cell, isInBounds m aa.1 aa.2 = true ∧ isWall m aa.1 aa.2 = false ∧
        (∃ k, reach (braid m p flip pick) a aa k) ∧
        (∃ k, reach (braid m p flip pick) aa a k) := by
    intro a hain haw
    have hain_m : isInBounds m a.1 a.2 = true := by
      rw [← isInBounds_congr_dims m _ a.1 a.2 hw hh]
      exact hain
    rcases hcell a with heq | ⟨hfalse, htrue, hin, c, hcde, hadj⟩
    · refine ⟨a, hain_m, ?_, ⟨0, reach.refl⟩, ⟨0, reach.refl⟩⟩
      rw [← isWall_congr_maze m _ a.1 a.2 heq]
      exact haw
    · obtain ⟨hcin, hcw⟩ := mem_findAllDeadEnds m c hcde
      have hcw2 : isWall (braid m p flip pick) c.1 c.2 = false := hpass c.1 c.2 hcw
      have hcin2 : isInBounds (braid m p flip pick) c.1 c.2 = true := by
        rw [isInBounds_congr_dims m _ c.1 c.2 hw hh]
        exact hcin
      refine ⟨c, hcin, hcw, ?_, ?_⟩
      · exact ⟨1, reach.step reach.refl ((mem_neighbors4_symm c a).mp hadj) hcin2 hcw2⟩
      · exact ⟨1, reach.step reach.refl hadj hain haw⟩
  intro a b hain haw hbin hbw
  obtain ⟨aa, haain, haaw, ⟨k1, hk1⟩, _⟩ := hanchor a hain haw
  obtain ⟨bb, hbbin, hbbw, _, ⟨k2, hk2⟩⟩ := hanchor b hbin hbw
  obtain ⟨n, hn⟩ := hconn aa bb haain haaw hbbin hbbw
  have hn2 : reach (braid m p flip pick) aa bb n :=
    reach_mono m _ hw hh hpass aa bb n hn
  exact ⟨k1 + n + k2,
    reach_trans _ a bb b (k1 + n) k2
      (reach_trans _ a aa bb k1 n hk1 hn2) hk2⟩

theorem mem_borderCells (m : Maze) (c : Cell) :
    c ∈ borderCells m ↔
      isInBounds m c.1 c.2 = true ∧ isWall m c.1 c.2 = false ∧ nearBorder m c := by
  unfold borderCells nearBorder
  rw [List.mem_filter]
  constructor
  · rintro ⟨h1, h2⟩
    simp only [Bool.and_eq_true, Bool.or_eq_true, decide_eq_true_eq, Bool.not_eq_true'] at h2
    refine ⟨?_, h2.1, ?_⟩
    · rw [isInBounds_iff_mem]
      exact h1
    · tauto
  · rintro ⟨h1, h2, h3⟩
    refine ⟨(isInBounds_iff_mem m c.1 c.2).mp h1, ?_⟩
    simp only [Bool.and_eq_true, Bool.or_eq_true, decide_eq_true_eq, Bool.not_eq_true']
    exact ⟨h2, by tauto⟩

theorem nodup_borderCells (m : Maze) : (borderCells m).Nodup :=
  (nodup_cellsRowMajor m).filter _

theorem getD_eq_get : ∀ (l : List Cell) (i : Nat) (h : i < l.length),
    l.getD i (0, 0) = l.get ⟨i, h⟩ := by
  intro l
  induction l with
  | nil => intro i h; simp at h
  | cons a tl ih =>
    intro i h
    cases i with
    | zero => rfl
    | succ i2 => exact ih i2 (by simpa using h)

theorem getD_mem (l : List Cell) (i : Nat) (h : i < l.length) : l.getD i (0, 0) ∈ l := by
  rw [getD_eq_get l i h]
  exact List.get_mem _ _ _

theorem getD_ne_of_nodup (l : List Cell) (hnd : l.Nodup) (i j : Nat)
    (hi : i < l.length) (hj : j < l.length) (hij : i ≠ j) :
    l.getD i (0, 0) ≠ l.getD j (0, 0) := by
  rw [getD_eq_get l i hi, getD_eq_get l j hj]
  intro h
  have := List.nodup_iff_injective_get.mp hnd h
  exact hij (by simpa using congrArg Fin.val this)

theorem mem_pairList (n : Nat) (p : Nat × Nat) (h : p ∈ pairList n) :
    p.1 < p.2 ∧ p.2 < n := by
  unfold pairList at h
  simp only [List.mem_flatMap, List.mem_map, List.mem_range, List.mem_range'] at h
  obtain ⟨i, hi, j, hj, rfl⟩ := h
  obtain ⟨k, hk, rfl⟩ := hj
  simp only
  omega

theorem foldl_flatMap {α β γ : Type} (g : α → List β) (f : γ → β → γ) :
    ∀ (L : List α) (init : γ),
      (L.flatMap g).foldl f init = L.foldl (fun s a => (g a).foldl f s) init := by
  intro L
  induction L with
  | nil => intro init; rfl
  | cons a tl ih =>
    intro init
    rw [List.flatMap_cons, List.foldl_append, List.foldl_cons, ih]

theorem selectBest_eq_flat (m : Maze) (bcs : List Cell) :
    selectBest m bcs = (pairList bcs.length).foldl (pairStep m bcs)
      (0, bcs.getD 0 (0, 0), bcs.getD 1 (0, 0)) := by
  unfold selectBest pairList
  rw [foldl_flatMap]
  apply List.foldl_ext
  intro st i hi
  rw [List.foldl_map]
  rfl

theorem dOf_pos (m : Maze) (bcs : List Cell) (hnd : bcs.Nodup) (p : Nat × Nat)
    (h1 : p.1 < p.2) (h2 : p.2 < bcs.length) (v : Nat) (hv : dOf m bcs p = some v) :
    0 < v := by
  rcases Nat.eq_zero_or_pos v with rfl | hpos
  · exfalso
    unfold dOf at hv
    have hz := calculateDistances_zero m _ _ _ hv
    have hne := getD_ne_of_nodup bcs hnd p.2 p.1 h2 (by omega) (by omega)
    exact hne hz
  · exact hpos

/-- Invariant of the pair-selection scan after processing the pair list P:
the running maximum dominates every defined distance seen so far, and the
kept state is either the untouched initial pair with nothing defined yet,
or the first pair of P attaining the running maximum. -/
def selInv (m : Maze) (bcs : List Cell) (P : List (Nat × Nat)) (st : Nat × Cell × Cell) : Prop :=
  (∀ p ∈ P, ∀ v, dOf m bcs p = some v → v ≤ st.1) ∧
  ((st.1 = 0 ∧ st.2.1 = bcs.getD 0 (0, 0) ∧ st.2.2 = bcs.getD 1 (0, 0) ∧
      ∀ p ∈ P, dOf m bcs p = none) ∨
   (0 < st.1 ∧ ∃ P1 p0 P2, P = P1 ++ p0 :: P2 ∧ dOf m bcs p0 = some st.1 ∧
      st.2.1 = bcs.getD p0.1 (0, 0) ∧ st.2.2 = bcs.getD p0.2 (0, 0) ∧
      ∀ p ∈ P1, ∀ v, dOf m bcs p = some v → v < st.1))

theorem selInv_init (m : Maze) (bcs : List Cell) :
    selInv m bcs [] (0, bcs.getD 0 (0, 0), bcs.getD 1 (0, 0)) := by
  constructor
  · intro p hp
    exact absurd hp (List.not_mem_nil _)
  · left
    exact ⟨rfl, rfl, rfl, fun p hp => absurd hp (List.not_mem_nil _)⟩

theorem selInv_step (m : Maze) (bcs : List Cell) (hnd : bcs.Nodup)
    (P : List (Nat × Nat)) (st : Nat × Cell × Cell) (p : Nat × Nat)
    (hp : p.1 < p.2 ∧ p.2 < bcs.length) (h : selInv m bcs P st) :
    selInv m bcs (P ++ [p]) (pairStep m bcs st p) := by
  obtain ⟨hmax, hcase⟩ := h
  unfold pairStep
  rcases hdof : dOf m bcs p with _ | v
  · show selInv m bcs (P ++ [p]) st
    constructor
    · intro q hq v hv
      rcases List.mem_append.mp hq with hq2 | hq2
      · exact hmax q hq2 v hv
      · rw [List.mem_singleton.mp hq2, hdof] at hv
        exact Option.noConfusion hv
    · rcases hcase with ⟨h1, h2, h3, h4⟩ | ⟨h1, P1, p0, P2, heq, h2, h3, h4, h5⟩
      · left
        refine ⟨h1, h2, h3, ?_⟩
        intro q hq
        rcases List.mem_append.mp hq with hq2 | hq2
        · exact h4 q hq2
        · rw [List.mem_singleton.mp hq2]
          exact hdof
      · right
        refine ⟨h1, P1, p0, P2 ++ [p], ?_, h2, h3, h4, h5⟩
        rw [heq, List.append_assoc, List.cons_append]
  · show selInv m bcs (P ++ [p])
      (if st.1 < v then (v, bcs.getD p.1 (0, 0), bcs.getD p.2 (0, 0)) else st)
    by_cases hlt : st.1 < v
    · rw [if_pos hlt]
      constructor
      · intro q hq u hu
        rcases List.mem_append.mp hq with hq2 | hq2
        · have := hmax q hq2 u hu
          show u ≤ v
          omega
        · rw [List.mem_singleton.mp hq2, hdof] at hu
          injection hu with hu2
          show u ≤ v
          omega
      · right
        refine ⟨?_, P, p, [], rfl, ?_, rfl, rfl, ?_⟩
        · show 0 < v
          omega
        · exact hdof
        · intro q hq u hu
          have := hmax q hq u hu
          show u < v
          omega
    · rw [if_neg hlt]
      have hvle : v ≤ st.1 := Nat.le_of_not_lt hlt
      constructor
      · intro q hq u hu
        rcases List.mem_append.mp hq with hq2 | hq2
        · exact hmax q hq2 u hu
        · rw [List.mem_singleton.mp hq2, hdof] at hu
          injection hu with hu2
          omega
      · rcases hcase with ⟨h1, h2, h3, h4⟩ | ⟨h1, P1, p0, P2, heq, h2, h3, h4, h5⟩
        · exfalso
          have hpos := dOf_pos m bcs hnd p hp.1 hp.2 v hdof
          omega
        · right
          refine ⟨h1, P1, p0, P2 ++ [p], ?_, h2, h3, h4, h5⟩
          rw [heq, List.append_assoc, List.cons_append]

theorem selectFold_inv (m : Maze) (bcs : List Cell) (hnd : bcs.Nodup) :
    ∀ (P : List (Nat × Nat)), (∀ p ∈ P, p.1 < p.2 ∧ p.2 < bcs.length) →
      selInv m bcs P (P.foldl (pairStep m bcs) (0, bcs.getD 0 (0, 0), bcs.getD 1 (0, 0))) := by
  intro P
  induction P using List.reverseRecOn with
  | nil => intro _; exact selInv_init m bcs
  | append_singleton P p ih =>
    intro hP
    rw [List.foldl_append, List.foldl_cons, List.foldl_nil]
    exact selInv_step m bcs hnd P _ p
      (hP p (List.mem_append_right _ (List.mem_singleton.mpr rfl)))
      (ih (fun q hq => hP q (List.mem_append_left _ hq)))

theorem find?_first {α : Type} (pred : α → Bool) :
    ∀ (l1 : List α) (a : α) (l2 : List α), (∀ x ∈ l1, pred x = false) → pred a = true →
      List.find? pred (l1 ++ a :: l2) = some a := by
  intro l1
  induction l1 with
  | nil =>
    intro a l2 _ hpa
    rw [List.nil_append]
    exact List.find?_cons_of_pos _ hpa
  | cons x tl ih =>
    intro a l2 hl hpa
    rw [List.cons_append, List.find?_cons_of_neg]
    · exact ih a l2 (fun w hw => hl w (List.mem_cons_of_mem x hw)) hpa
    · simp [hl x (List.mem_cons_self _ _)]

theorem cellsRowMajor_congr (m1 m2 : Maze) (hw : m1.width = m2.width)
    (hh : m1.height = m2.height) : cellsRowMajor m1 = cellsRowMajor m2 := by
  unfold cellsRowMajor
  rw [hw, hh]

theorem getPassageNeighbors_congr (m1 m2 : Maze) (hw : m1.width = m2.width)
    (hh : m1.height = m2.height) (hiso : ∀ x y, isWall m1 x y = isWall m2 x y)
    (x y : Int) : getPassageNeighbors m1 x y = getPassageNeighbors m2 x y := by
  unfold getPassageNeighbors
  apply List.filter_congr
  intro q _
  rw [hiso q.1 q.2, isInBounds_congr_dims m2 m1 q.1 q.2 hw hh]

theorem bfsLoop_congr (m1 m2 : Maze) (hw : m1.width = m2.width)
    (hh : m1.height = m2.height) (hiso : ∀ x y, isWall m1 x y = isWall m2 x y) :
    ∀ (dist : DMap) (queue : List (Cell × Nat)),
      bfsLoop m1 dist queue = bfsLoop m2 dist queue := by
  refine bfsLoop.induct m1 (fun dist queue => bfsLoop m1 dist queue = bfsLoop m2 dist queue) ?_ ?_
  · intro dist
    rw [bfsLoop_nil, bfsLoop_nil]
  · intro dist c d rest ih
    rw [bfsLoop_cons, bfsLoop_cons, ← getPassageNeighbors_congr m1 m2 hw hh hiso c.1 c.2]
    exact ih

theorem calculateDistances_congr (m1 m2 : Maze) (hw : m1.width = m2.width)
    (hh : m1.height = m2.height) (hiso : ∀ x y, isWall m1 x y = isWall m2 x y)
    (sx sy : Int) : calculateDistances m1 sx sy = calculateDistances m2 sx sy := by
  unfold calculateDistances
  exact bfsLoop_congr m1 m2 hw hh hiso _ _

theorem borderCells_congr (m1 m2 : Maze) (hw : m1.width = m2.width)
    (hh : m1.height = m2.height) (hiso : ∀ x y, isWall m1 x y = isWall m2 x y) :
    borderCells m1 = borderCells m2 := by
  unfold borderCells
  rw [cellsRowMajor_congr m1 m2 hw hh]
  apply List.filter_congr
  intro c _
  rw [hiso c.1 c.2, hw, hh]

theorem selectBest_congr (m1 m2 : Maze) (hw : m1.width = m2.width)
    (hh : m1.height = m2.height) (hiso : ∀ x y, isWall m1 x y = isWall m2 x y)
    (bcs : List Cell) : selectBest m1 bcs = selectBest m2 bcs := by
  unfold selectBest
  apply List.foldl_ext
  intro st i hi
  rw [calculateDistances_congr m1 m2 hw hh hiso (bcs.getD i (0, 0)).1 (bcs.getD i (0, 0)).2]

theorem setStartAndExit_congr (m1 m2 : Maze) (hw : m1.width = m2.width)
    (hh : m1.height = m2.height) (hiso : ∀ x y, isWall m1 x y = isWall m2 x y) :
    (setStartAndExit m1).startPos = (setStartAndExit m2).startPos ∧
    (setStartAndExit m1).exitPos = (setStartAndExit m2).exitPos := by
  simp only [setStartAndExit]
  rw [borderCells_congr m1 m2 hw hh hiso, selectBest_congr m1 m2 hw hh hiso]
  by_cases hlen : (borderCells m2).length < 2
  · rw [if_pos hlen, if_pos hlen]
    constructor
    · rfl
    · show some ((m1.width : Int) - 2, (m1.height : Int) - 2)
        = some ((m2.width : Int) - 2, (m2.height : Int) - 2)
      rw [hw, hh]
  · rw [if_neg hlen, if_neg hlen]
    by_cases hsum : (selectBest m2 (borderCells m2)).2.1.1 + (selectBest m2 (borderCells m2)).2.1.2
        < (selectBest m2 (borderCells m2)).2.2.1 + (selectBest m2 (borderCells m2)).2.2.2
    · rw [if_pos hsum, if_pos hsum]
      exact ⟨rfl, rfl⟩
    · rw [if_neg hsum, if_neg hsum]
      exact ⟨rfl, rfl⟩

/-- The coordinate-keyed map holds entries only at in-bounds cells. -/
def mazeSupportInBounds (m : Maze) : Prop :=
  ∀ c : Cell, m.maze c ≠ none → isInBounds m c.1 c.2 = true

theorem setWall_fold_fields {α : Type} (proj : α → Cell) (g : α → Bool) :
    ∀ (L : List α) (acc : Maze),
      (L.foldl (fun a e => setWall a (proj e).1 (proj e).2 (g e)) acc).width = acc.width ∧
      (L.foldl (fun a e => setWall a (proj e).1 (proj e).2 (g e)) acc).height = acc.height ∧
      (L.foldl (fun a e => setWall a (proj e).1 (proj e).2 (g e)) acc).startPos = acc.startPos ∧
      (L.foldl (fun a e => setWall a (proj e).1 (proj e).2 (g e)) acc).exitPos = acc.exitPos := by
  intro L
  induction L with
  | nil => intro acc; exact ⟨rfl, rfl, rfl, rfl⟩
  | cons a tl ih =>
    intro acc
    rw [List.foldl_cons]
    exact ih (setWall acc (proj a).1 (proj a).2 (g a))

theorem setWall_support (m : Maze) (x y : Int) (w : Bool)
    (hin : isInBounds m x y = true) (h : mazeSupportInBounds m) :
    mazeSupportInBounds (setWall m x y w) := by
  intro c hc
  have hdims : isInBounds (setWall m x y w) c.1 c.2 = isInBounds m c.1 c.2 :=
    isInBounds_congr_dims m _ c.1 c.2 rfl rfl
  rw [hdims]
  by_cases hcx : c = (x, y)
  · subst hcx
    exact hin
  · apply h c
    intro hnone
    apply hc
    show (if c = (x, y) then some w else m.maze c) = none
    rw [if_neg hcx]
    exact hnone

theorem setWall_fold_support {α : Type} (proj : α → Cell) (g : α → Bool) :
    ∀ (L : List α) (acc : Maze), mazeSupportInBounds acc →
      (∀ e ∈ L, isInBounds acc (proj e).1 (proj e).2 = true) →
      mazeSupportInBounds (L.foldl (fun a e => setWall a (proj e).1 (proj e).2 (g e)) acc) := by
  intro L
  induction L with
  | nil => intro acc h _; exact h
  | cons a tl ih =>
    intro acc h hL
    rw [List.foldl_cons]
    apply ih (setWall acc (proj a).1 (proj a).2 (g a))
    · exact setWall_support acc _ _ _ (hL a (List.mem_cons_self _ _)) h
    · intro e he
      rw [isInBounds_congr_dims acc (setWall acc (proj a).1 (proj a).2 (g a))
        (proj e).1 (proj e).2 rfl rfl]
      exact hL e (List.mem_cons_of_mem a he)

theorem clearMaze_support (m : Maze) : mazeSupportInBounds (clearMaze m) := by
  intro c hc
  exact absurd rfl hc

theorem initWalls_support (m : Maze) (h : mazeSupportInBounds m) :
    mazeSupportInBounds (initWalls m) := by
  unfold initWalls
  exact setWall_fold_support (fun c => c) (fun _ => true) (cellsRowMajor m) m h
    (fun c hc => (isInBounds_iff_mem m c.1 c.2).mpr hc)

theorem initWalls_fields (m : Maze) :
    (initWalls m).width = m.width ∧ (initWalls m).height = m.height ∧
    (initWalls m).startPos = m.startPos ∧ (initWalls m).exitPos = m.exitPos := by
  unfold initWalls
  exact setWall_fold_fields (fun c => c) (fun _ => true) (cellsRowMajor m) m

theorem applyCarve_support (m : Maze) (cb : List (Cell × Nat))
    (h : mazeSupportInBounds m) (hcb : ∀ e ∈ cb, isInBounds m e.1.1 e.1.2 = true) :
    mazeSupportInBounds (applyCarve m cb) := by
  unfold applyCarve
  exact setWall_fold_support (fun e => e.1) (fun e => decide (e.2 = 1)) cb m h hcb

theorem applyCarve_fields (m : Maze) (cb : List (Cell × Nat)) :
    (applyCarve m cb).width = m.width ∧ (applyCarve m cb).height = m.height ∧
    (applyCarve m cb).startPos = m.startPos ∧ (applyCarve m cb).exitPos = m.exitPos := by
  unfold applyCarve
  exact setWall_fold_fields (fun e => e.1) (fun e => decide (e.2 = 1)) cb m

theorem setStartAndExit_frame (m : Maze) :
    (setStartAndExit m).width = m.width ∧ (setStartAndExit m).height = m.height ∧
    (setStartAndExit m).maze = m.maze := by
  simp only [setStartAndExit]
  split
  · exact ⟨rfl, rfl, rfl⟩
  · split
    · exact ⟨rfl, rfl, rfl⟩
    · exact ⟨rfl, rfl, rfl⟩

theorem setStartAndExit_support (m : Maze) (h : mazeSupportInBounds m) :
    mazeSupportInBounds (setStartAndExit m) := by
  intro c hc
  obtain ⟨hw, hh, hmz⟩ := setStartAndExit_frame m
  rw [isInBounds_congr_dims m _ c.1 c.2 hw hh]
  apply h c
  rw [← hmz]
  exact hc

theorem generate_support (m : Maze) (alg : String)
    (carve : GeneratorKind → List (Cell × Nat))
    (hcarve : ∀ e ∈ carve (selectGenerator alg), isInBounds m e.1.1 e.1.2 = true) :
    mazeSupportInBounds (generate m alg carve) := by
  unfold generate
  apply setStartAndExit_support
  apply applyCarve_support
  · exact initWalls_support (clearMaze m) (clearMaze_support m)
  · intro e he
    have h1 := (initWalls_fields (clearMaze m)).1
    have h2 := (initWalls_fields (clearMaze m)).2.1
    rw [isInBounds_congr_dims m _ e.1.1 e.1.2 (by rw [h1]; rfl) (by rw [h2]; rfl)]
    exact hcarve e he

theorem braid_support (m : Maze) (p : Int) (flip : Cell → Bool) (pick : Cell → Nat)
    (h : mazeSupportInBounds m) : mazeSupportInBounds (braid m p flip pick) := by
  intro c hc
  obtain ⟨hw, hh, _, _, hcell⟩ := braid_inv m p flip pick
  rw [isInBounds_congr_dims m _ c.1 c.2 hw hh]
  rcases hcell c with heq | ⟨_, _, hin, _⟩
  · apply h c
    rw [← heq]
    exact hc
  · exact hin

theorem support_oob_isWall (m : Maze) (h : mazeSupportInBounds m) (x y : Int)
    (hoob : isInBounds m x y = false) : isWall m x y = false := by
  unfold isWall
  apply decide_eq_false
  intro hsome
  have := h (x, y) (by rw [hsome]; exact Option.noConfusion)
  rw [this] at hoob
  exact Bool.noConfusion hoob

theorem selectGenerator_unknown (alg : String) (h1 : alg ≠ "eller") (h2 : alg ≠ "icey")
    (h3 : alg ≠ "divided") : selectGenerator alg = GeneratorKind.divided := by
  unfold selectGenerator
  split <;> simp_all

theorem setStartAndExit_normal_cases (m : Maze) (h2 : ¬ (borderCells m).length < 2) :
    ((setStartAndExit m).startPos = some (selectBest m (borderCells m)).2.1 ∧
     (setStartAndExit m).exitPos = some (selectBest m (borderCells m)).2.2 ∧
     (selectBest m (borderCells m)).2.1.1 + (selectBest m (borderCells m)).2.1.2
       < (selectBest m (borderCells m)).2.2.1 + (selectBest m (borderCells m)).2.2.2) ∨
    ((setStartAndExit m).startPos = some (selectBest m (borderCells m)).2.2 ∧
     (setStartAndExit m).exitPos = some (selectBest m (borderCells m)).2.1 ∧
     (selectBest m (borderCells m)).2.2.1 + (selectBest m (borderCells m)).2.2.2
       ≤ (selectBest m (borderCells m)).2.1.1 + (selectBest m (borderCells m)).2.1.2) := by
  simp only [setStartAndExit]
  rw [if_neg h2]
  by_cases hsum : (selectBest m (borderCells m)).2.1.1 + (selectBest m (borderCells m)).2.1.2
      < (selectBest m (borderCells m)).2.2.1 + (selectBest m (borderCells m)).2.2.2
  · left
    rw [if_pos hsum]
    exact ⟨rfl, rfl, hsum⟩
  · right
    rw [if_neg hsum]
    exact ⟨rfl, rfl, by omega⟩

theorem isWall_setStartAndExit (m : Maze) (x y : Int) :
    isWall (setStartAndExit m) x y = isWall m x y :=
  isWall_congr_maze m _ x y (congrFun (setStartAndExit_frame m).2.2 (x, y))

theorem nearBorder_setStartAndExit (m : Maze) (c : Cell) :
    nearBorder (setStartAndExit m) c ↔ nearBorder m c := by
  unfold nearBorder
  rw [(setStartAndExit_frame m).1, (setStartAndExit_frame m).2.1]

theorem selectBest_pair_indices (m : Maze) (h2 : 2 ≤ (borderCells m).length) :
    ∃ i j : Nat, i < j ∧ j < (borderCells m).length ∧
      (selectBest m (borderCells m)).2.1 = (borderCells m).getD i (0, 0) ∧
      (selectBest m (borderCells m)).2.2 = (borderCells m).getD j (0, 0) := by
  have hinv := selectFold_inv m (borderCells m) (nodup_borderCells m)
    (pairList (borderCells m).length) (fun p hp => mem_pairList _ p hp)
  rw [← selectBest_eq_flat] at hinv
  rcases hinv.2 with ⟨_, hA, hB, _⟩ | ⟨_, P1, p0, P2, heqP, _, hA, hB, _⟩
  · exact ⟨0, 1, by omega, by omega, hA, hB⟩
  · have hp0 : p0 ∈ pairList (borderCells m).length := by
      rw [heqP]
      exact List.mem_append_right _ (List.mem_cons_self _ _)
    obtain ⟨hpa, hpb⟩ := mem_pairList _ p0 hp0
    exact ⟨p0.1, p0.2, hpa, hpb, hA, hB⟩

/-- Concrete 3 by 3 test maze with two adjacent passage cells. -/
def M3P : Maze := mkMaze 3 3 [(1, 1), (2, 1)]

/-- Variant of M3P differing only in the startPos field. -/
def M3Pv : Maze := { M3P with startPos := some (0, 0) }

/-- Concrete all-wall 3 by 3 maze for the degenerate-branch refutation. -/
def M33 : Maze := mkMaze 3 3 []

theorem connected_M3P : connectedMaze M3P := by
  have hchar : ∀ a : Cell, isInBounds M3P a.1 a.2 = true → isWall M3P a.1 a.2 = false →
      a = ((1 : Int), (1 : Int)) ∨ a = ((2 : Int), (1 : Int)) := by
    rintro ⟨x, y⟩ hin hw
    rw [isInBounds_iff] at hin
    obtain ⟨h1, h2, h3, h4⟩ := hin
    have hx : x < 3 := by exact_mod_cast h2
    have hy : y < 3 := by exact_mod_cast h4
    interval_cases x <;> interval_cases y <;> revert hw <;> decide
  intro a b hain haw hbin hbw
  rcases hchar a hain haw with rfl | rfl <;> rcases hchar b hbin hbw with rfl | rfl
  · exact ⟨0, reach.refl⟩
  · exact ⟨1, reach.step reach.refl (by decide) (by decide) (by decide)⟩
  · exact ⟨1, reach.step reach.refl (by decide) (by decide) (by decide)⟩
  · exact ⟨0, reach.refl⟩

/-- C1 counterexample: on a generated all-wall 3 by 3 grid the degenerate
branch of setStartAndExit assigns the fixed fallback pair, which here
makes startPos equal exitPos and places it on a wall cell, so the claim
that both endpoints are always distinct passage cells, including in the
degenerate branch, is false. -/
theorem setStartAndExit_fallback_violates_claim :
    ¬ (∀ s e : Cell, (generate M33 "eller" (fun _ => [])).startPos = some s →
        (generate M33 "eller" (fun _ => [])).exitPos = some e →
        s ≠ e ∧ isWall (generate M33 "eller" (fun _ => [])) s.1 s.2 = false) := by
  intro h
  have h2 := h (1, 1) (1, 1) (by decide) (by decide)
  exact h2.1 rfl

/-- C1 (amended): whenever setStartAndExit runs on a grid with at least
two border cells (the normal, non-fallback branch), the assigned startPos
and exitPos are two distinct cells, both PASSAGE cells (isWall is false),
and both lie within 2 cells of a grid edge.  In the degenerate branch the
fixed fallback pair is assigned without these guarantees. -/
theorem setStartAndExit_endpoints_valid (m : Maze) (h2 : 2 ≤ (borderCells m).length) :
    ∃ s e : Cell,
      (setStartAndExit m).startPos = some s ∧ (setStartAndExit m).exitPos = some e ∧
      s ≠ e ∧ isWall (setStartAndExit m) s.1 s.2 = false ∧
      isWall (setStartAndExit m) e.1 e.2 = false ∧
      nearBorder (setStartAndExit m) s ∧ nearBorder (setStartAndExit m) e := by
  obtain ⟨i, j, hij, hjlen, h21, h22⟩ := selectBest_pair_indices m h2
  have hnd := nodup_borderCells m
  have hsmem := getD_mem (borderCells m) i (by omega)
  have hemem := getD_mem (borderCells m) j hjlen
  obtain ⟨hsin, hsw, hsnb⟩ := (mem_borderCells m _).mp hsmem
  obtain ⟨hein, hew, henb⟩ := (mem_borderCells m _).mp hemem
  have hne := getD_ne_of_nodup (borderCells m) hnd i j (by omega) hjlen (by omega)
  rcases setStartAndExit_normal_cases m (by omega) with ⟨hs, he, _⟩ | ⟨hs, he, _⟩
  · refine ⟨_, _, hs, he, ?_, ?_, ?_, ?_, ?_⟩
    · rw [h21, h22]
      exact hne
    · rw [isWall_setStartAndExit, h21]
      exact hsw
    · rw [isWall_setStartAndExit, h22]
      exact hew
    · rw [nearBorder_setStartAndExit, h21]
      exact hsnb
    · rw [nearBorder_setStartAndExit, h22]
      exact henb
  · refine ⟨_, _, hs, he, ?_, ?_, ?_, ?_, ?_⟩
    · rw [h21, h22]
      exact hne.symm
    · rw [isWall_setStartAndExit, h22]
      exact hew
    · rw [isWall_setStartAndExit, h21]
      exact hsw
    · rw [nearBorder_setStartAndExit, h22]
      exact henb
    · rw [nearBorder_setStartAndExit, h21]
      exact hsnb

theorem setStartAndExit_endpoints_valid_witness :
    2 ≤ (borderCells M3P).length ∧
    (∃ s e : Cell,
      (setStartAndExit M3P).startPos = some s ∧ (setStartAndExit M3P).exitPos = some e ∧
      s ≠ e ∧ isWall (setStartAndExit M3P) s.1 s.2 = false ∧
      isWall (setStartAndExit M3P) e.1 e.2 = false ∧
      nearBorder (setStartAndExit M3P) s ∧ nearBorder (setStartAndExit M3P) e) :=
  ⟨by decide, setStartAndExit_endpoints_valid M3P (by decide)⟩

/-- C2: braid never turns a passage into a wall, for every grid, every
percentage and every outcome of the random draws, so the passage set only
grows; consequently full connectivity of the passage graph is preserved
by braiding. -/
theorem braid_never_removes_passages (m : Maze) (p : Int) (flip : Cell → Bool)
    (pick : Cell → Nat) :
    (∀ x y : Int, isWall m x y = false → isWall (braid m p flip pick) x y = false) ∧
    (connectedMaze m → connectedMaze (braid m p flip pick)) :=
  ⟨braid_passage_preserved m p flip pick,
   fun hc => braid_preserves_connected m p flip pick hc⟩

theorem braid_never_removes_passages_witness :
    isWall (braid M3P 50 (fun _ => true) (fun _ => 0)) 1 1 = false ∧
    connectedMaze (braid M3P 50 (fun _ => true) (fun _ => 0)) :=
  ⟨(braid_never_removes_passages M3P 50 (fun _ => true) (fun _ => 0)).1 1 1 (by decide),
   (braid_never_removes_passages M3P 50 (fun _ => true) (fun _ => 0)).2 connected_M3P⟩

/-- C3: for a passage source cell, calculateDistances returns a map whose
keys are exactly the cells reachable from the source through chains of
orthogonally adjacent in-bounds passage cells (the source included), and
each recorded value is the length of a shortest such path. -/
theorem calculateDistances_bfs_correct (m : Maze) (sx sy : Int)
    (hin : isInBounds m sx sy = true) (hpass : isWall m sx sy = false)
    (c : Cell) (n : Nat) :
    dmFind (calculateDistances m sx sy) c = some n ↔
      (reach m (sx, sy) c n ∧ ∀ k, reach m (sx, sy) c k → n ≤ k) :=
  calculateDistances_spec m sx sy c n

theorem calculateDistances_bfs_correct_witness :
    isInBounds M3P 1 1 = true ∧ isWall M3P 1 1 = false ∧
    (dmFind (calculateDistances M3P 1 1) (2, 1) = some 1 ↔
      (reach M3P (1, 1) (2, 1) 1 ∧ ∀ k, reach M3P (1, 1) (2, 1) k → 1 ≤ k)) :=
  ⟨by decide, by decide,
   calculateDistances_bfs_correct M3P 1 1 (by decide) (by decide) (2, 1) 1⟩

/-- C4: with at least two border cells, the kept maximum dominates every
defined pair distance in the i < j enumeration; when some pair distance is
defined, the kept pair is the first pair of the enumeration attaining the
maximum; and the unordered pair assigned to startPos and exitPos is
exactly the kept pair. -/
theorem selectBest_maximal_first_tie (m : Maze) (h2 : 2 ≤ (borderCells m).length) :
    (∀ p ∈ pairList (borderCells m).length, ∀ v, dOf m (borderCells m) p = some v →
        v ≤ (selectBest m (borderCells m)).1) ∧
    ((∃ p ∈ pairList (borderCells m).length, ∃ v, dOf m (borderCells m) p = some v) →
      ∃ p0, (pairList (borderCells m).length).find?
          (fun p => dOf m (borderCells m) p == some (selectBest m (borderCells m)).1)
          = some p0 ∧
        dOf m (borderCells m) p0 = some (selectBest m (borderCells m)).1 ∧
        (selectBest m (borderCells m)).2.1 = (borderCells m).getD p0.1 (0, 0) ∧
        (selectBest m (borderCells m)).2.2 = (borderCells m).getD p0.2 (0, 0)) ∧
    ((setStartAndExit m).startPos = some (selectBest m (borderCells m)).2.1 ∧
       (setStartAndExit m).exitPos = some (selectBest m (borderCells m)).2.2 ∨
     (setStartAndExit m).startPos = some (selectBest m (borderCells m)).2.2 ∧
       (setStartAndExit m).exitPos = some (selectBest m (borderCells m)).2.1) := by
  have hinv := selectFold_inv m (borderCells m) (nodup_borderCells m)
    (pairList (borderCells m).length) (fun p hp => mem_pairList _ p hp)
  rw [← selectBest_eq_flat] at hinv
  refine ⟨hinv.1, ?_, ?_⟩
  · rintro ⟨p, hp, v, hv⟩
    rcases hinv.2 with ⟨_, _, _, hnone⟩ | ⟨hpos, P1, p0, P2, heqP, hd0, hA, hB, hlt⟩
    · rw [hnone p hp] at hv
      exact Option.noConfusion hv
    · refine ⟨p0, ?_, hd0, hA, hB⟩
      rw [heqP]
      apply find?_first
      · intro x hx
        show (dOf m (borderCells m) x == some (selectBest m (borderCells m)).1) = false
        rcases hdx : dOf m (borderCells m) x with _ | u
        · rfl
        · have hu := hlt x hx u hdx
          rw [beq_eq_false_iff_ne]
          intro heq
          injection heq with heq2
          omega
      · show (dOf m (borderCells m) p0 == some (selectBest m (borderCells m)).1) = true
        rw [hd0]
        simp
  · rcases setStartAndExit_normal_cases m (by omega) with ⟨hs, he, _⟩ | ⟨hs, he, _⟩
    · exact Or.inl ⟨hs, he⟩
    · exact Or.inr ⟨hs, he⟩

theorem selectBest_maximal_first_tie_witness :
    2 ≤ (borderCells M3P).length ∧
    ((∀ p ∈ pairList (borderCells M3P).length, ∀ v, dOf M3P (borderCells M3P) p = some v →
        v ≤ (selectBest M3P (borderCells M3P)).1) ∧
    ((∃ p ∈ pairList (borderCells M3P).length, ∃ v, dOf M3P (borderCells M3P) p = some v) →
      ∃ p0, (pairList (borderCells M3P).length).find?
          (fun p => dOf M3P (borderCells M3P) p == some (selectBest M3P (borderCells M3P)).1)
          = some p0 ∧
        dOf M3P (borderCells M3P) p0 = some (selectBest M3P (borderCells M3P)).1 ∧
        (selectBest M3P (borderCells M3P)).2.1 = (borderCells M3P).getD p0.1 (0, 0) ∧
        (selectBest M3P (borderCells M3P)).2.2 = (borderCells M3P).getD p0.2 (0, 0)) ∧
    ((setStartAndExit M3P).startPos = some (selectBest M3P (borderCells M3P)).2.1 ∧
       (setStartAndExit M3P).exitPos = some (selectBest M3P (borderCells M3P)).2.2 ∨
     (setStartAndExit M3P).startPos = some (selectBest M3P (borderCells M3P)).2.2 ∧
       (setStartAndExit M3P).exitPos = some (selectBest M3P (borderCells M3P)).2.1)) :=
  ⟨by decide, selectBest_maximal_first_tie M3P (by decide)⟩

/-- Concrete 2 by 2 all-wall base maze for the generate theorems. -/
def M22 : Maze := mkMaze 2 2 []

/-- C5: for any algorithm string other than eller, icey and divided,
generate runs the same default generator class as the divided key, so it
behaves exactly like generate with the divided algorithm instead of
failing. -/
theorem generate_unknown_algorithm_defaults (m : Maze) (alg : String)
    (carve : GeneratorKind → List (Cell × Nat))
    (h1 : alg ≠ "eller") (h2 : alg ≠ "icey") (h3 : alg ≠ "divided") :
    generate m alg carve = generate m "divided" carve := by
  unfold generate
  rw [selectGenerator_unknown alg h1 h2 h3,
    show selectGenerator "divided" = GeneratorKind.divided from rfl]

theorem generate_unknown_algorithm_defaults_witness :
    ("prim" : String) ≠ "eller" ∧ ("prim" : String) ≠ "icey" ∧
    ("prim" : String) ≠ "divided" ∧
    generate M22 "prim" (fun _ => [((0, 0), 0)])
      = generate M22 "divided" (fun _ => [((0, 0), 0)]) :=
  ⟨by decide, by decide, by decide,
   generate_unknown_algorithm_defaults M22 "prim" (fun _ => [((0, 0), 0)])
     (by decide) (by decide) (by decide)⟩

/-- C6: braid with a nonpositive percentage returns the maze unchanged:
same wall map, same dimensions, same start and exit positions, for every
outcome of the random draws. -/
theorem braid_nonpositive_noop (m : Maze) (p : Int) (flip : Cell → Bool)
    (pick : Cell → Nat) (hp : p ≤ 0) : braid m p flip pick = m := by
  unfold braid
  rw [if_pos hp]

theorem braid_nonpositive_noop_witness :
    (0 : Int) ≤ 0 ∧ braid M3P 0 (fun _ => true) (fun _ => 0) = M3P :=
  ⟨by decide, braid_nonpositive_noop M3P 0 (fun _ => true) (fun _ => 0) (by decide)⟩

/-- C7: on the normal path with at least two border cells, the assigned
start has coordinate sum at most the coordinate sum of the exit. -/
theorem setStartAndExit_start_smaller_sum (m : Maze) (h2 : 2 ≤ (borderCells m).length) :
    ∃ s e : Cell, (setStartAndExit m).startPos = some s ∧
      (setStartAndExit m).exitPos = some e ∧ s.1 + s.2 ≤ e.1 + e.2 := by
  rcases setStartAndExit_normal_cases m (by omega) with ⟨hs, he, hlt⟩ | ⟨hs, he, hle⟩
  · exact ⟨_, _, hs, he, by omega⟩
  · exact ⟨_, _, hs, he, hle⟩

theorem setStartAndExit_start_smaller_sum_witness :
    2 ≤ (borderCells M3P).length ∧
    (∃ s e : Cell, (setStartAndExit M3P).startPos = some s ∧
      (setStartAndExit M3P).exitPos = some e ∧ s.1 + s.2 ≤ e.1 + e.2) :=
  ⟨by decide, setStartAndExit_start_smaller_sum M3P (by decide)⟩

/-- C8: setStartAndExit is deterministic: two mazes with the same
dimensions and the same wall content pointwise receive the same startPos
and the same exitPos, independent of any other state. -/
theorem setStartAndExit_deterministic (m1 m2 : Maze) (hw : m1.width = m2.width)
    (hh : m1.height = m2.height) (hiso : ∀ x y, isWall m1 x y = isWall m2 x y) :
    (setStartAndExit m1).startPos = (setStartAndExit m2).startPos ∧
    (setStartAndExit m1).exitPos = (setStartAndExit m2).exitPos :=
  setStartAndExit_congr m1 m2 hw hh hiso

theorem setStartAndExit_deterministic_witness :
    M3P.width = M3Pv.width ∧ M3P.height = M3Pv.height ∧
    (∀ x y, isWall M3P x y = isWall M3Pv x y) ∧
    ((setStartAndExit M3P).startPos = (setStartAndExit M3Pv).startPos ∧
     (setStartAndExit M3P).exitPos = (setStartAndExit M3Pv).exitPos) :=
  ⟨rfl, rfl, fun _ _ => rfl,
   setStartAndExit_deterministic M3P M3Pv rfl rfl (fun _ _ => rfl)⟩

/-- C9: braid changes neither the dimensions nor the endpoint fields, and
the only cells whose stored state it can change are cells that were walls
before the call, in bounds, orthogonally adjacent to some dead end of the
pre-braid grid; every change writes a passage. -/
theorem braid_frame_effect (m : Maze) (p : Int) (flip : Cell → Bool) (pick : Cell → Nat) :
    (braid m p flip pick).width = m.width ∧
    (braid m p flip pick).height = m.height ∧
    (braid m p flip pick).startPos = m.startPos ∧
    (braid m p flip pick).exitPos = m.exitPos ∧
    ∀ q : Cell, (braid m p flip pick).maze q ≠ m.maze q →
      isWall m q.1 q.2 = true ∧ isInBounds m q.1 q.2 = true ∧
      (braid m p flip pick).maze q = some false ∧
      ∃ c ∈ findAllDeadEnds m, q ∈ neighbors4 c := by
  obtain ⟨hw, hh, hs, he, hcell⟩ := braid_inv m p flip pick
  refine ⟨hw, hh, hs, he, ?_⟩
  intro q hne
  rcases hcell q with heq | ⟨h1, h2, h3, h4⟩
  · exact absurd heq hne
  · refine ⟨?_, h3, h1, h4⟩
    unfold isWall
    rw [h2]
    rfl

theorem braid_frame_effect_witness :
    (braid M3P 100 (fun _ => true) (fun _ => 0)).maze ((1 : Int), (0 : Int))
      ≠ M3P.maze ((1 : Int), (0 : Int)) ∧
    (isWall M3P 1 0 = true ∧ isInBounds M3P 1 0 = true ∧
     (braid M3P 100 (fun _ => true) (fun _ => 0)).maze ((1 : Int), (0 : Int)) = some false ∧
     ∃ c ∈ findAllDeadEnds M3P, ((1 : Int), (0 : Int)) ∈ neighbors4 c) :=
  ⟨by decide,
   (braid_frame_effect M3P 100 (fun _ => true) (fun _ => 0)).2.2.2.2 (1, 0) (by decide)⟩

/-- C10: a maze produced by generate (with the external generator writing
only in-bounds cells, as ROT.js does) and then braided reports isWall
false for every out-of-bounds coordinate: missing keys read as non-walls,
never as walls or errors. -/
theorem isWall_out_of_bounds_false (m : Maze) (alg : String)
    (carve : GeneratorKind → List (Cell × Nat)) (p : Int) (flip : Cell → Bool)
    (pick : Cell → Nat)
    (hcarve : ∀ e ∈ carve (selectGenerator alg), isInBounds m e.1.1 e.1.2 = true)
    (x y : Int)
    (hoob : isInBounds (braid (generate m alg carve) p flip pick) x y = false) :
    isWall (braid (generate m alg carve) p flip pick) x y = false :=
  support_oob_isWall _
    (braid_support _ p flip pick (generate_support m alg carve hcarve)) x y hoob

theorem isWall_out_of_bounds_false_witness :
    (∀ e ∈ (fun _ : GeneratorKind => [(((0 : Int), (0 : Int)), (0 : Nat))])
        (selectGenerator "eller"), isInBounds M22 e.1.1 e.1.2 = true) ∧
    isInBounds (braid (generate M22 "eller" (fun _ => [((0, 0), 0)])) 0
      (fun _ => true) (fun _ => 0)) 5 5 = false ∧
    isWall (braid (generate M22 "eller" (fun _ => [((0, 0), 0)])) 0
      (fun _ => true) (fun _ => 0)) 5 5 = false :=
  ⟨by decide, by decide,
   isWall_out_of_bounds_false M22 "eller" (fun _ => [((0, 0), 0)]) 0
     (fun _ => true) (fun _ => 0) (by decide) 5 5 (by decide)⟩
